import Mathlib

/-!
Verification of the smart-travel-scout recommendation service.

The TypeScript sources are shallowly embedded: strings become `List Char`,
JavaScript numbers become exact rationals `ℚ` (the values occurring in the
catalog and in the claims are exactly representable), `number[]` id lists
become `List Int`, thrown exceptions become `Except`, and `null`/`undefined`
results become `Option`.  The nondeterministic external AI call in
`getRecommendations` is modelled by an explicit `AIOutcome` argument that
carries either the response text or the thrown error message; the prompt
strings sent outward do not influence any value returned to the caller and
are therefore not modelled.
-/

namespace STS

/-! ## Character classes (src/lib/safety.ts regexes) -/

/-- ASCII control characters: the class `[\x00-\x1F\x7F]`. -/
def isCtrl (c : Char) : Bool := decide (c.toNat < 32) || c.toNat == 127

/-- The JavaScript `\s` class (whitespace as matched by `/\s/`). -/
def jsWhite (c : Char) : Bool :=
  c.toNat == 9 || c.toNat == 10 || c.toNat == 11 || c.toNat == 12 ||
  c.toNat == 13 || c.toNat == 32 || c.toNat == 160 || c.toNat == 5760 ||
  (decide (8192 ≤ c.toNat) && decide (c.toNat ≤ 8202)) ||
  c.toNat == 8232 || c.toNat == 8233 || c.toNat == 8239 ||
  c.toNat == 8287 || c.toNat == 12288 || c.toNat == 65279

/-- ASCII lower-casing, as performed by a case-insensitive regex on the
ASCII-only denylist patterns. -/
def lcase (c : Char) : Char :=
  if 65 ≤ c.toNat ∧ c.toNat ≤ 90 then Char.ofNat (c.toNat + 32) else c

/-! ## `.replace(/\s+/g, ' ')` and `.trim()` -/

/-- Replace every maximal run of whitespace by a single space
(the `.replace(/\s+/g, ' ')` step). -/
def collapseWS : List Char → List Char
  | [] => []
  | [c] => if jsWhite c then [' '] else [c]
  | a :: b :: rest =>
    if jsWhite a && jsWhite b then collapseWS (b :: rest)
    else (if jsWhite a then ' ' else a) :: collapseWS (b :: rest)

/-- Drop trailing whitespace (the right half of `.trim()`). -/
def dropTrailingWS : List Char → List Char
  | [] => []
  | c :: rest =>
    match dropTrailingWS rest with
    | [] => if jsWhite c then [] else [c]
    | r => c :: r

/-- The `.trim()` step: drop leading and trailing whitespace. -/
def trimWS (l : List Char) : List Char := dropTrailingWS (l.dropWhile jsWhite)

/-! ## The denylist regexes

The four prompt-injection patterns and the two code-fence patterns are all
of the form "literal characters separated by `\s+` or `\s*`, optionally
ending in `\n?`".  Because whitespace tokens are never followed by a
whitespace-matching token, greedy maximal-munch matching coincides with the
regex semantics, so a simple token matcher embeds them exactly. -/

inductive PTok where
  | lit : Char → PTok
  | ws1 : PTok
  | ws0 : PTok
  | optc : Char → PTok

/-- Match a token pattern at the head of the input; returns the rest of the
input after the match.  `ci` selects case-insensitive literal comparison. -/
def matchPat (ci : Bool) : List PTok → List Char → Option (List Char)
  | [], l => some l
  | PTok.lit _ :: _, [] => none
  | PTok.lit c :: ps, d :: l =>
    if (if ci then lcase d == lcase c else d == c) then matchPat ci ps l else none
  | PTok.ws1 :: _, [] => none
  | PTok.ws1 :: ps, d :: l =>
    if jsWhite d then matchPat ci ps (l.dropWhile jsWhite) else none
  | PTok.ws0 :: ps, l => matchPat ci ps (l.dropWhile jsWhite)
  | PTok.optc _ :: ps, [] => matchPat ci ps []
  | PTok.optc c :: ps, d :: l =>
    if d == c then matchPat ci ps l else matchPat ci ps (d :: l)

/-- One left-to-right pass replacing every non-overlapping match by the empty
string, exactly as `String.prototype.replace` with a `g` regex: the text
produced by a deletion is never rescanned.  Fuel is the input length; every
pattern used here starts with a literal, so a match always consumes at least
one character and the fuel never runs out. -/
def replaceAux (ci : Bool) (ps : List PTok) : Nat → List Char → List Char
  | 0, l => l
  | _ + 1, [] => []
  | fuel + 1, c :: l =>
    match matchPat ci ps (c :: l) with
    | some l2 => replaceAux ci ps fuel l2
    | none => c :: replaceAux ci ps fuel l

/-- `text.replace(pattern-with-g-flag, '')`. -/
def replacePat (ci : Bool) (ps : List PTok) (l : List Char) : List Char :=
  replaceAux ci ps l.length l

def litTokens (s : String) : List PTok := s.toList.map PTok.lit

/-- The regex `/ignore\s+previous\s+instructions/gi`. -/
def patIgnorePrev : List PTok :=
  litTokens "ignore" ++ [PTok.ws1] ++ litTokens "previous" ++ [PTok.ws1] ++
    litTokens "instructions"

/-- The regex `/system\s*:/gi`. -/
def patSystemColon : List PTok := litTokens "system" ++ [PTok.ws0, PTok.lit ':']

/-- The regex `/you\s+are\s+now/gi`. -/
def patYouAreNow : List PTok :=
  litTokens "you" ++ [PTok.ws1] ++ litTokens "are" ++ [PTok.ws1] ++ litTokens "now"

/-- The regex `/disregard\s+all/gi`. -/
def patDisregardAll : List PTok := litTokens "disregard" ++ [PTok.ws1] ++ litTokens "all"

/-- Whether some occurrence of the token pattern appears anywhere in `l`. -/
def containsPat (ci : Bool) (ps : List PTok) : List Char → Bool
  | [] => (matchPat ci ps []).isSome
  | c :: l => (matchPat ci ps (c :: l)).isSome || containsPat ci ps l

/-! ## `sanitizeUserInput` (src/lib/safety.ts) -/

/-- The normalization stage of `sanitizeUserInput`: strip control characters,
collapse whitespace runs, trim. -/
def normalizeQuery (input : List Char) : List Char :=
  trimWS (collapseWS (input.filter (fun c => !isCtrl c)))

/-- `sanitizeUserInput`: normalize, truncate to 200 characters, then run one
global replace per denylist pattern, in source order. -/
def sanitizeUserInput (input : List Char) : List Char :=
  replacePat true patDisregardAll
    (replacePat true patYouAreNow
      (replacePat true patSystemColon
        (replacePat true patIgnorePrev ((normalizeQuery input).take 200))))

/-! ## JSON values and `JSON.parse`

JSON numbers are modelled as exact rationals; every numeric literal in the
catalog and in the claims is exactly representable. -/

inductive Json where
  | null : Json
  | bool : Bool → Json
  | num : ℚ → Json
  | str : String → Json
  | arr : List Json → Json
  | obj : List (String × Json) → Json

/-- JSON insignificant whitespace. -/
def jsonWs (c : Char) : Bool := c == ' ' || c == '\t' || c == '\n' || c == '\r'

def hexVal (c : Char) : Option Nat :=
  if decide (48 ≤ c.toNat) && decide (c.toNat ≤ 57) then some (c.toNat - 48)
  else if decide (97 ≤ c.toNat) && decide (c.toNat ≤ 102) then some (c.toNat - 87)
  else if decide (65 ≤ c.toNat) && decide (c.toNat ≤ 70) then some (c.toNat - 55)
  else none

/-- Parse the body of a JSON string (after the opening quote), handling the
escape sequences; returns the decoded characters and the input after the
closing quote. -/
def parseStringBody : Nat → List Char → Option (List Char × List Char)
  | 0, _ => none
  | _ + 1, [] => none
  | fuel + 1, c :: l =>
    if c == '"' then some ([], l)
    else if c == '\\' then
      match l with
      | [] => none
      | e :: l2 =>
        let esc : Option (Char × List Char) :=
          if e == '"' then some ('"', l2)
          else if e == '\\' then some ('\\', l2)
          else if e == '/' then some ('/', l2)
          else if e == 'b' then some (Char.ofNat 8, l2)
          else if e == 'f' then some (Char.ofNat 12, l2)
          else if e == 'n' then some (Char.ofNat 10, l2)
          else if e == 'r' then some (Char.ofNat 13, l2)
          else if e == 't' then some (Char.ofNat 9, l2)
          else if e == 'u' then
            match l2 with
            | h1 :: h2 :: h3 :: h4 :: l3 =>
              match hexVal h1, hexVal h2, hexVal h3, hexVal h4 with
              | some a, some b, some c2, some d =>
                some (Char.ofNat (((a * 16 + b) * 16 + c2) * 16 + d), l3)
              | _, _, _, _ => none
            | _ => none
          else none
        match esc with
        | some (ch, rest) =>
          match parseStringBody fuel rest with
          | some (s, r) => some (ch :: s, r)
          | none => none
        | none => none
    else if decide (c.toNat < 32) then none
    else
      match parseStringBody fuel l with
      | some (s, r) => some (c :: s, r)
      | none => none

def isDigitC (c : Char) : Bool := decide (48 ≤ c.toNat) && decide (c.toNat ≤ 57)

def digitsToNat (ds : List Char) : Nat := ds.foldl (fun a c => a * 10 + (c.toNat - 48)) 0

/-- The rational `m * 10 ^ e`. -/
def mkDecimal (m : Int) (e : Int) : ℚ :=
  if 0 ≤ e then ((m * (10 : Int) ^ e.toNat : Int) : ℚ)
  else mkRat m ((10 : Nat) ^ (-e).toNat)

/-- Parse an optional fraction part; returns its digits (empty if absent). -/
def parseFrac : List Char → Option (List Char × List Char)
  | c :: r =>
    if c == '.' then
      let fd := r.takeWhile isDigitC
      if fd.isEmpty then none else some (fd, r.drop fd.length)
    else some ([], c :: r)
  | [] => some ([], [])

/-- Parse an optional exponent part; returns the signed exponent value. -/
def parseExp : List Char → Option (Int × List Char)
  | c :: r =>
    if c == 'e' || c == 'E' then
      match r with
      | d :: r2 =>
        let (esign, r1) : Int × List Char :=
          if d == '+' then (1, r2) else if d == '-' then (-1, r2) else (1, d :: r2)
        let ed := r1.takeWhile isDigitC
        if ed.isEmpty then none
        else some (esign * (digitsToNat ed : Int), r1.drop ed.length)
      | [] => none
    else some (0, c :: r)
  | [] => some (0, [])

/-- Parse a JSON number literal into an exact rational. -/
def parseNumber (l : List Char) : Option (ℚ × List Char) :=
  match l with
  | [] => none
  | c0 :: r0 =>
    let neg := c0 == '-'
    let l1 := if neg then r0 else l
    let ds := l1.takeWhile isDigitC
    if ds.isEmpty then none
    else if decide (1 < ds.length) && (ds.headD ' ' == '0') then none
    else
      match parseFrac (l1.drop ds.length) with
      | none => none
      | some (fds, rest1) =>
        match parseExp rest1 with
        | none => none
        | some (ev, rest2) =>
          let mag : Nat := digitsToNat (ds ++ fds)
          let m : Int := if neg then -(mag : Int) else (mag : Int)
          some (mkDecimal m (ev - (fds.length : Int)), rest2)

/-- Strip an exact literal from the head of the input. -/
def stripL : List Char → List Char → Option (List Char)
  | [], l => some l
  | c :: cs, d :: l => if c == d then stripL cs l else none
  | _ :: _, [] => none

def lbraceC : Char := Char.ofNat 123

def rbraceC : Char := Char.ofNat 125

mutual

/-- Recursive-descent JSON value parser.  The fuel only bounds the nesting
of the mutual recursion; `JSONparse` supplies enough for any input. -/
def parseValue : Nat → List Char → Option (Json × List Char)
  | 0, _ => none
  | fuel + 1, l0 =>
    let l := l0.dropWhile jsonWs
    match stripL "null".toList l with
    | some r => some (Json.null, r)
    | none =>
      match stripL "true".toList l with
      | some r => some (Json.bool true, r)
      | none =>
        match stripL "false".toList l with
        | some r => some (Json.bool false, r)
        | none =>
          match l with
          | [] => none
          | c :: r =>
            if c == '"' then
              match parseStringBody (r.length + 1) r with
              | some (s, rest) => some (Json.str (String.mk s), rest)
              | none => none
            else if c == '[' then
              match r.dropWhile jsonWs with
              | d :: r2 =>
                if d == ']' then some (Json.arr [], r2)
                else
                  match parseElems fuel r with
                  | some (vs, rest) => some (Json.arr vs, rest)
                  | none => none
              | [] => none
            else if c == lbraceC then
              match r.dropWhile jsonWs with
              | d :: r2 =>
                if d == rbraceC then some (Json.obj [], r2)
                else
                  match parseMembers fuel r with
                  | some (ms, rest) => some (Json.obj ms, rest)
                  | none => none
              | [] => none
            else
              match parseNumber l with
              | some (q, rest) => some (Json.num q, rest)
              | none => none

/-- Parse a non-empty comma-separated element list up to the closing `]`. -/
def parseElems : Nat → List Char → Option (List Json × List Char)
  | 0, _ => none
  | fuel + 1, l =>
    match parseValue fuel l with
    | none => none
    | some (v, rest) =>
      match rest.dropWhile jsonWs with
      | c :: r =>
        if c == ',' then
          match parseElems fuel r with
          | some (vs, rest2) => some (v :: vs, rest2)
          | none => none
        else if c == ']' then some ([v], r)
        else none
      | [] => none

/-- Parse a non-empty comma-separated member list up to the closing brace. -/
def parseMembers : Nat → List Char → Option (List (String × Json) × List Char)
  | 0, _ => none
  | fuel + 1, l =>
    match l.dropWhile jsonWs with
    | c :: r =>
      if c == '"' then
        match parseStringBody (r.length + 1) r with
        | none => none
        | some (ks, rest) =>
          match rest.dropWhile jsonWs with
          | d :: r2 =>
            if d == ':' then
              match parseValue fuel r2 with
              | none => none
              | some (v, rest2) =>
                match rest2.dropWhile jsonWs with
                | e :: r3 =>
                  if e == ',' then
                    match parseMembers fuel r3 with
                    | some (ms, rest3) => some ((String.mk ks, v) :: ms, rest3)
                    | none => none
                  else if e == rbraceC then some ([(String.mk ks, v)], r3)
                  else none
                | [] => none
            else none
          | [] => none
      else none
    | [] => none

end

/-- `JSON.parse`, as an exception-throwing operation: the parsed value, or a
thrown `SyntaxError` when the text is not a complete JSON document. -/
def JSONparse (text : List Char) : Except String Json :=
  match parseValue (2 * text.length + 2) text with
  | some (v, rest) =>
    if (rest.dropWhile jsonWs).isEmpty then Except.ok v
    else Except.error "Unexpected token in JSON"
  | none => Except.error "Unexpected token in JSON"

/-! ## `safeJsonParse` (src/lib/safety.ts) -/

/-- The regex `/```json\n?/g`. -/
def patFenceJson : List PTok := litTokens "```json" ++ [PTok.optc (Char.ofNat 10)]

/-- The regex `/```\n?/g`. -/
def patFence : List PTok := litTokens "```" ++ [PTok.optc (Char.ofNat 10)]

/-- The fence-stripping pre-processing described by the spec: remove
Markdown code-fence wrappers, then trim. -/
def stripFences (text : List Char) : List Char :=
  trimWS (replacePat false patFence (replacePat false patFenceJson text))

/-- `safeJsonParse`: strip code fences, trim, try `JSON.parse`, and catch any
parse failure, returning an absent value instead of rethrowing. -/
def safeJsonParse (jsonString : List Char) : Option Json :=
  match JSONparse (trimWS (replacePat false patFence
      (replacePat false patFenceJson jsonString))) with
  | Except.ok v => some v
  | Except.error _ => none

/-! ## Data model (src/lib/types.ts) -/

structure Experience where
  id : Int
  title : String
  location : String
  price : ℚ
  tags : List String
deriving DecidableEq

structure LLMRecommendation where
  experience_ids : List Int
  reasoning : String
  matched_tags : Option (List String)
deriving DecidableEq

structure Filters where
  minPrice : Option ℚ := none
  maxPrice : Option ℚ := none
  selectedTags : Option (List String) := none

/-! ## Zod schemas (src/lib/inventory.ts, src/lib/validation.ts) -/

/-- Property access on a parsed JSON object (`JSON.parse` keeps the last
binding of a repeated key). -/
def lookupField (k : String) (fields : List (String × Json)) : Option Json :=
  ((fields.filter (fun p => p.1 == k)).getLast?).map (fun p => p.2)

def strsOf : List Json → Option (List String)
  | [] => some []
  | Json.str s :: rest => (strsOf rest).map (fun ts => s :: ts)
  | _ => none

/-- `z.array(z.string())`. -/
def asStringList : Json → Option (List String)
  | Json.arr items => strsOf items
  | _ => none

def intsOf : List Json → Option (List Int)
  | [] => some []
  | Json.num q :: rest =>
    if q.den == 1 then (intsOf rest).map (fun is => q.num :: is) else none
  | _ => none

/-- `z.array(z.number().int())`. -/
def asIntList : Json → Option (List Int)
  | Json.arr items => intsOf items
  | _ => none

/-- `ExperienceSchema.safeParse`: id a positive integer, title and location
non-empty strings, price a positive number, tags a non-empty string list. -/
def parseExperience (j : Json) : Option Experience :=
  match j with
  | Json.obj fields =>
    match lookupField "id" fields, lookupField "title" fields,
          lookupField "location" fields, lookupField "price" fields,
          lookupField "tags" fields with
    | some (Json.num idq), some (Json.str title), some (Json.str location),
        some (Json.num price), some tagsJson =>
      match asStringList tagsJson with
      | some ts =>
        if idq.den == 1 && decide (0 < idq) && decide (0 < title.length) &&
            decide (0 < location.length) && decide (0 < price) &&
            decide (1 ≤ ts.length)
        then some ⟨idq.num, title, location, price, ts⟩
        else none
      | none => none
    | _, _, _, _, _ => none
  | _ => none

/-- `InventorySchema.parse` over the element list: all records must parse. -/
def parseInventory : List Json → Option (List Experience)
  | [] => some []
  | j :: rest =>
    match parseExperience j with
    | some e => (parseInventory rest).map (fun es => e :: es)
    | none => none

/-- `getAllExperiences`: validate the raw dataset, throwing on any failure. -/
def getAllExperiences (data : Json) : Except String (List Experience) :=
  match data with
  | Json.arr items =>
    match parseInventory items with
    | some exps => Except.ok exps
    | none => Except.error "Invalid inventory data structure"
  | _ => Except.error "Invalid inventory data structure"

/-- `LLMRecommendationSchema.safeParse`: 0 to 5 positive-integer ids,
reasoning of length at least 10, optional string-list matched_tags. -/
def parseLLMRecommendation (j : Json) : Option LLMRecommendation :=
  match j with
  | Json.obj fields =>
    match lookupField "experience_ids" fields, lookupField "reasoning" fields with
    | some idsJson, some (Json.str reasoning) =>
      match asIntList idsJson with
      | some ids =>
        if ids.all (fun i => decide (0 < i)) && decide (ids.length ≤ 5) &&
            decide (10 ≤ reasoning.length) then
          match lookupField "matched_tags" fields with
          | none => some ⟨ids, reasoning, none⟩
          | some mt =>
            match asStringList mt with
            | some ts => some ⟨ids, reasoning, some ts⟩
            | none => none
        else none
      | none => none
    | _, _ => none
  | _ => none

/-! ## Catalog filtering (src/lib/inventory.ts) -/

/-- `filterExperiences`: price-range conjunction with an any-selected-tag
disjunction; absent bounds and absent or empty tag lists do not filter. -/
def filterExperiences (experiences : List Experience) (minPrice maxPrice : Option ℚ)
    (selectedTags : Option (List String)) : List Experience :=
  experiences.filter (fun exp =>
    ((match minPrice with
      | none => true
      | some m => decide (m ≤ exp.price)) &&
     (match maxPrice with
      | none => true
      | some m => decide (exp.price ≤ m))) &&
    (match selectedTags with
     | none => true
     | some tags => tags.isEmpty || tags.any (fun tag => exp.tags.contains tag)))

/-! ## Safety helpers (src/lib/safety.ts) -/

/-- `validateExperienceIds`: keep exactly the ids present in the inventory
(the `Set` of valid ids is modelled by list membership). -/
def validateExperienceIds (ids : List Int) (inventory : List Experience) : List Int :=
  let validIds := inventory.map (fun e => e.id)
  ids.filter (fun i => validIds.contains i)

/-- The comparator key `Math.abs(price - 100)` used by the fallback sort. -/
def midKey (e : Experience) : ℚ := |e.price - 100|

def keyLe (a b : Experience) : Prop := midKey a ≤ midKey b

instance : DecidableRel keyLe := fun a b => inferInstanceAs (Decidable (midKey a ≤ midKey b))

/-- `getFallbackRecommendations`: stable-sort the inventory by ascending
distance of price from 100 (JavaScript `Array.prototype.sort` is stable),
take the first `min count inventory.length` records, return their ids. -/
def getFallbackRecommendations (inventory : List Experience) (count : Nat := 3) : List Int :=
  let sorted := List.insertionSort keyLe inventory
  (sorted.take (min count inventory.length)).map (fun e => e.id)

/-! ## Recommendation engine (src/lib/test-inventory.ts, Gemini client) -/

def shortQueryMsg : String :=
  "Please provide a more detailed search query (at least 3 characters)."

def parseFailMsg : String := "Unable to parse AI response. Showing popular experiences."

def invalidFormatMsg : String := "AI response format was invalid. Showing popular experiences."

def busyMsg : String := "AI service is temporarily busy. Showing popular experiences."

def genericFailMsg : String := "Unable to process your request. Showing popular experiences."

/-- `getFallbackResponse`. -/
def getFallbackResponse (inventory : List Experience) (reason : String) : LLMRecommendation :=
  ⟨getFallbackRecommendations inventory 3, reason, some []⟩

def leadsWith : List Char → List Char → Bool
  | [], _ => true
  | _ :: _, [] => false
  | a :: as, b :: bs => a == b && leadsWith as bs

/-- `String.prototype.includes` (case-sensitive substring test). -/
def containsSeq (needle : List Char) : List Char → Bool
  | [] => leadsWith needle []
  | c :: rest => leadsWith needle (c :: rest) || containsSeq needle rest

/-- The outcome of the external Gemini call: either the raw response text or
a thrown error carrying its message. -/
inductive AIOutcome where
  | response : List Char → AIOutcome
  | failure : List Char → AIOutcome

/-- `getRecommendations`: sanitize and short-circuit, otherwise consult the
external AI outcome; parse, schema-validate and id-validate its response,
falling back on each failure; rethrow only errors whose message contains
"API key", and use the busy message for rate-limit errors.  The prompt built
from `filters` and the inventory is sent outward only and does not affect
the returned value, so it is not modelled. -/
def getRecommendations (userQuery : List Char) (filters : Filters)
    (inventory : List Experience) (outcome : AIOutcome) :
    Except String LLMRecommendation :=
  let sanitizedQuery := sanitizeUserInput userQuery
  if sanitizedQuery.length < 3 then
    Except.ok ⟨[], shortQueryMsg, some []⟩
  else
    match outcome with
    | AIOutcome.failure msg =>
      if containsSeq "API key".toList msg then Except.error (String.mk msg)
      else if containsSeq "429".toList msg || containsSeq "quota".toList msg then
        Except.ok (getFallbackResponse inventory busyMsg)
      else Except.ok (getFallbackResponse inventory genericFailMsg)
    | AIOutcome.response text =>
      match safeJsonParse text with
      | none => Except.ok (getFallbackResponse inventory parseFailMsg)
      | some parsed =>
        match parseLLMRecommendation parsed with
        | none => Except.ok (getFallbackResponse inventory invalidFormatMsg)
        | some valid =>
          Except.ok ⟨validateExperienceIds valid.experience_ids inventory,
            valid.reasoning, some (valid.matched_tags.getD [])⟩

/-! ## Page-level UI state (src/app/page.tsx) and utilities -/

/-- `handleTagToggle`: remove the tag if selected, append it otherwise. -/
def handleTagToggle (tag : String) (prev : List String) : List String :=
  if prev.contains tag then prev.filter (fun t => !(t == tag)) else prev ++ [tag]

/-- Helper for `unique`: the `Set` insertion-order traversal. -/
def uniqueAux {α : Type _} [DecidableEq α] (seen : List α) : List α → List α
  | [] => []
  | a :: rest => if a ∈ seen then uniqueAux seen rest else a :: uniqueAux (a :: seen) rest

/-- `unique`: `Array.from(new Set(arr))`, which keeps the first occurrence of
each element in first-seen order. -/
def unique {α : Type _} [DecidableEq α] (arr : List α) : List α := uniqueAux [] arr

/-! ## Claim C3: filter semantics -/

/-- The spec's wording of the filter predicate: a record is kept iff
(no minPrice or price at least minPrice), and (no maxPrice or price at most
maxPrice), and (no selectedTags, or selectedTags empty, or some tag of the
record is a member of selectedTags). -/
def specFilterKeep (minPrice maxPrice : Option ℚ) (selectedTags : Option (List String))
    (r : Experience) : Bool :=
  (minPrice.all fun m => decide (m ≤ r.price)) &&
  (maxPrice.all fun m => decide (r.price ≤ m)) &&
  (selectedTags.all fun ts => ts.isEmpty || r.tags.any (fun t => ts.contains t))

/-- Symmetry of the it-has-a-common-element test between two lists. -/
theorem any_mem_comm {α : Type _} [DecidableEq α] (xs ys : List α) :
    (xs.any fun x => decide (x ∈ ys)) = (ys.any fun y => decide (y ∈ xs)) := by
  rw [Bool.eq_iff_iff]
  simp only [List.any_eq_true, decide_eq_true_eq]
  tauto

/-- C3: for every record list and every combination of optional bounds and
selected tags, `filterExperiences` keeps exactly the records satisfying the
spec predicate (absent bound means unconstrained; tag matching is an OR over
the selected tags), preserves input order, and, being a pure function on
immutable lists, does not mutate its input. -/
theorem filterExperiences_spec (experiences : List Experience)
    (minPrice maxPrice : Option ℚ) (selectedTags : Option (List String)) :
    filterExperiences experiences minPrice maxPrice selectedTags
      = experiences.filter (specFilterKeep minPrice maxPrice selectedTags) ∧
    (filterExperiences experiences minPrice maxPrice selectedTags).Sublist experiences ∧
    ∀ r, r ∈ filterExperiences experiences minPrice maxPrice selectedTags ↔
      r ∈ experiences ∧ (∀ m, minPrice = some m → m ≤ r.price) ∧
      (∀ m, maxPrice = some m → r.price ≤ m) ∧
      (∀ ts, selectedTags = some ts → ts ≠ [] → ∃ t ∈ r.tags, t ∈ ts) := by
  refine ⟨?_, List.filter_sublist _, ?_⟩
  · refine List.filter_congr ?_
    intro r _
    cases minPrice <;> cases maxPrice <;> cases selectedTags <;>
      simp [specFilterKeep, List.elem_iff, any_mem_comm]
  · intro r
    cases minPrice <;> cases maxPrice <;> cases selectedTags <;>
      simp [filterExperiences, List.mem_filter, List.any_eq_true, List.elem_iff,
        List.isEmpty_iff] <;>
      tauto

/-! ## Claim C4: hallucinated-id filtering -/

/-- C4: `validateExperienceIds` returns exactly the order-preserving sublist
of the input ids whose elements occur as the id of some catalog record; in
particular, on `[1, 2, 999]` with 999 absent and 1, 2 present it returns
`[1, 2]`. -/
theorem validateExperienceIds_spec (ids : List Int) (inventory : List Experience) :
    validateExperienceIds ids inventory
      = ids.filter (fun i => decide (∃ e ∈ inventory, e.id = i)) ∧
    (validateExperienceIds ids inventory).Sublist ids ∧
    ((∃ e ∈ inventory, e.id = 1) → (∃ e ∈ inventory, e.id = 2) →
      (¬ ∃ e ∈ inventory, e.id = 999) →
      validateExperienceIds [1, 2, 999] inventory = [1, 2]) := by
  have hcong : ∀ (l : List Int),
      validateExperienceIds l inventory
        = l.filter (fun i => decide (∃ e ∈ inventory, e.id = i)) := by
    intro l
    refine List.filter_congr ?_
    intro i _
    simp [List.elem_iff, List.mem_map, eq_comm]
  refine ⟨hcong ids, ?_, ?_⟩
  · rw [hcong ids]; exact List.filter_sublist _
  · intro h1 h2 h3
    rw [hcong [1, 2, 999]]
    simp [List.filter, h1, h2, h3]

/-- C4 witness: a concrete catalog containing ids 1 and 2 but not 999. -/
def invC4 : List Experience :=
  [⟨1, "Beach Day", "Mirissa", 60, ["beach"]⟩,
   ⟨2, "Fort Walk", "Galle", 45, ["history"]⟩]

/-- C4 witness: the concrete example from the spec. -/
theorem validateExperienceIds_spec_witness :
    validateExperienceIds [1, 2, 999] invC4 = [1, 2] :=
  (validateExperienceIds_spec [1, 2, 999] invC4).2.2
    (by decide) (by decide) (by decide)

/-! ## Claim C9: tag-toggle involution on membership -/

/-- C9: toggling the same tag twice restores the membership of every tag to
what it was originally, and a single toggle adds the tag if absent and
removes it if present, leaving every other tag's membership unchanged. -/
theorem handleTagToggle_spec (prev : List String) (tag : String) :
    (∀ t, t ∈ handleTagToggle tag (handleTagToggle tag prev) ↔ t ∈ prev) ∧
    (tag ∈ handleTagToggle tag prev ↔ tag ∉ prev) ∧
    (∀ t, t ≠ tag → (t ∈ handleTagToggle tag prev ↔ t ∈ prev)) := by
  by_cases h : tag ∈ prev
  · refine ⟨?_, ?_, ?_⟩
    · intro t
      by_cases ht : t = tag <;>
        simp [handleTagToggle, List.elem_iff, h, ht, List.mem_filter]
    · simp [handleTagToggle, List.elem_iff, h, List.mem_filter]
    · intro t ht
      simp [handleTagToggle, List.elem_iff, h, ht, List.mem_filter]
  · refine ⟨?_, ?_, ?_⟩
    · intro t
      by_cases ht : t = tag <;>
        simp [handleTagToggle, List.elem_iff, h, ht, List.mem_filter]
    · simp [handleTagToggle, List.elem_iff, h]
    · intro t ht
      simp [handleTagToggle, List.elem_iff, h, ht]

/-- C9 witness: the membership facts at a concrete state and tag. -/
theorem handleTagToggle_spec_witness :
    ("beach" ∈ handleTagToggle "culture" (handleTagToggle "culture" ["beach"]) ↔
      "beach" ∈ ["beach"]) ∧
    ("beach" ∈ handleTagToggle "culture" ["beach"] ↔ "beach" ∈ ["beach"]) :=
  ⟨(handleTagToggle_spec ["beach"] "culture").1 "beach",
   (handleTagToggle_spec ["beach"] "culture").2.2 "beach" (by decide)⟩

/-! ## Claim C10: set-based de-duplication -/

theorem uniqueAux_sublist {α : Type _} [DecidableEq α] :
    ∀ (l seen : List α), (uniqueAux seen l).Sublist l
  | [], _ => by simp [uniqueAux]
  | a :: rest, seen => by
    simp only [uniqueAux]
    split
    · exact (uniqueAux_sublist rest seen).cons a
    · exact (uniqueAux_sublist rest (a :: seen)).cons₂ a

/-- Visited-set accumulation is the same as filtering the seen elements out
of the plain traversal. -/
theorem uniqueAux_eq_filter {α : Type _} [DecidableEq α] :
    ∀ (l seen : List α),
      uniqueAux seen l = (uniqueAux [] l).filter (fun a => decide (a ∉ seen))
  | [], _ => by simp [uniqueAux]
  | a :: rest, seen => by
    have hnil : uniqueAux ([] : List α) (a :: rest) = a :: uniqueAux [a] rest := by
      simp [uniqueAux]
    have ih1 := uniqueAux_eq_filter rest seen
    have ih2 := uniqueAux_eq_filter rest (a :: seen)
    have ih3 := uniqueAux_eq_filter rest [a]
    rw [hnil, List.filter_cons]
    by_cases h : a ∈ seen
    · have hpa : decide (a ∉ seen) = false := by simp [h]
      rw [hpa, if_neg (by decide)]
      simp only [uniqueAux, if_pos h]
      rw [ih1, ih3, List.filter_filter]
      refine List.filter_congr ?_
      intro x _
      by_cases hx : x = a
      · subst hx; simp [h]
      · simp [hx]
    · have hpa : decide (a ∉ seen) = true := by simp [h]
      rw [hpa, if_pos rfl]
      simp only [uniqueAux, if_neg h]
      rw [ih2, ih3, List.filter_filter]
      congr 1
      refine List.filter_congr ?_
      intro x _
      by_cases hx : x = a
      · subst hx; simp
      · simp [hx]

theorem unique_cons {α : Type _} [DecidableEq α] (a : α) (l : List α) :
    unique (a :: l) = a :: (unique l).filter (fun b => !(b == a)) := by
  have hnil : uniqueAux ([] : List α) (a :: l) = a :: uniqueAux [a] l := by
    simp [uniqueAux]
  rw [unique, hnil, uniqueAux_eq_filter l [a]]
  refine congrArg (a :: ·) (List.filter_congr ?_)
  intro x _
  by_cases hx : x = a <;> simp [hx]

theorem mem_unique {α : Type _} [DecidableEq α] (a : α) :
    ∀ (l : List α), a ∈ unique l ↔ a ∈ l
  | [] => by simp [unique, uniqueAux]
  | b :: rest => by
    rw [unique_cons]
    by_cases hab : a = b
    · simp [hab]
    · simp [hab, List.mem_filter, mem_unique a rest]

theorem nodup_unique {α : Type _} [DecidableEq α] : ∀ (l : List α), (unique l).Nodup
  | [] => by simp [unique, uniqueAux]
  | b :: rest => by
    rw [unique_cons, List.nodup_cons]
    constructor
    · intro hmem
      have hb := (List.mem_filter.mp hmem).2
      simp at hb
    · exact List.Nodup.filter _ (nodup_unique rest)

theorem unique_filter_comm {α : Type _} [DecidableEq α] :
    ∀ (l : List α) (p : α → Bool), unique (l.filter p) = (unique l).filter p
  | [], _ => by simp [unique, uniqueAux]
  | a :: rest, p => by
    rw [List.filter_cons]
    by_cases hp : p a
    · rw [if_pos hp, unique_cons, unique_cons, List.filter_cons, if_pos hp,
        unique_filter_comm rest p, List.filter_filter, List.filter_filter]
      refine congrArg (a :: ·) (List.filter_congr ?_)
      intro x _
      exact Bool.and_comm _ _
    · rw [if_neg hp, unique_cons, List.filter_cons, if_neg hp,
        unique_filter_comm rest p, List.filter_filter]
      refine List.filter_congr ?_
      intro x _
      by_cases hx : x = a
      · subst hx
        simp [hp]
      · simp [hx]

theorem unique_of_nodup {α : Type _} [DecidableEq α] :
    ∀ (l : List α), l.Nodup → unique l = l
  | [], _ => by simp [unique, uniqueAux]
  | a :: rest, h => by
    rw [unique_cons, unique_of_nodup rest (List.nodup_cons.mp h).2]
    refine congrArg (a :: ·) (List.filter_eq_self.mpr ?_)
    intro x hx
    have hne : x ≠ a := fun he => (List.nodup_cons.mp h).1 (he ▸ hx)
    simp [hne]

/-- C10: `unique` keeps exactly one occurrence of each distinct element, in
first-occurrence order (characterized by: it is an order-preserving sublist
with no duplicates and the same members, and it satisfies the
first-occurrence recursion), and it is idempotent. -/
theorem unique_spec {α : Type _} [DecidableEq α] (l : List α) :
    (unique l).Nodup ∧
    (∀ a, a ∈ unique l ↔ a ∈ l) ∧
    (unique l).Sublist l ∧
    (∀ (a : α) (l' : List α),
      unique (a :: l') = a :: unique (l'.filter (fun b => !(b == a)))) ∧
    unique (unique l) = unique l := by
  refine ⟨nodup_unique l, fun a => mem_unique a l, uniqueAux_sublist l [], ?_, ?_⟩
  · intro a l'
    rw [unique_cons, unique_filter_comm]
  · exact unique_of_nodup (unique l) (nodup_unique l)

/-! ## Claim C5: sanitizer lemmas -/

/-- A successful pattern match consumes a prefix of the input. -/
theorem matchPat_decomp :
    ∀ (ci : Bool) (ps : List PTok) (l r : List Char),
      matchPat ci ps l = some r → ∃ t, t ++ r = l
  | _, [], l, r => by
    intro h
    simp only [matchPat, Option.some.injEq] at h
    exact ⟨[], by rw [h, List.nil_append]⟩
  | _, PTok.lit c :: ps, [], r => by simp [matchPat]
  | ci, PTok.lit c :: ps, d :: l, r => by
    intro h
    simp only [matchPat] at h
    by_cases hcnd : (if ci then lcase d == lcase c else d == c) = true
    · rw [if_pos hcnd] at h
      obtain ⟨t, ht⟩ := matchPat_decomp ci ps l r h
      exact ⟨d :: t, by rw [List.cons_append, ht]⟩
    · rw [if_neg hcnd] at h
      exact absurd h (by simp)
  | _, PTok.ws1 :: ps, [], r => by simp [matchPat]
  | ci, PTok.ws1 :: ps, d :: l, r => by
    intro h
    simp only [matchPat] at h
    split at h
    · obtain ⟨t, ht⟩ := matchPat_decomp ci ps (l.dropWhile jsWhite) r h
      obtain ⟨t2, ht2⟩ := List.dropWhile_suffix (l := l) jsWhite
      refine ⟨d :: (t2 ++ t), ?_⟩
      rw [List.cons_append, List.append_assoc, ht, ht2]
    · exact absurd h (by simp)
  | ci, PTok.ws0 :: ps, l, r => by
    intro h
    simp only [matchPat] at h
    obtain ⟨t, ht⟩ := matchPat_decomp ci ps (l.dropWhile jsWhite) r h
    obtain ⟨t2, ht2⟩ := List.dropWhile_suffix (l := l) jsWhite
    refine ⟨t2 ++ t, ?_⟩
    rw [List.append_assoc, ht, ht2]
  | ci, PTok.optc c :: ps, [], r => by
    intro h
    simp only [matchPat] at h
    obtain ⟨t, ht⟩ := matchPat_decomp ci ps [] r h
    exact ⟨t, ht⟩
  | ci, PTok.optc c :: ps, d :: l, r => by
    intro h
    simp only [matchPat] at h
    split at h
    · obtain ⟨t, ht⟩ := matchPat_decomp ci ps l r h
      exact ⟨d :: t, by rw [List.cons_append, ht]⟩
    · exact matchPat_decomp ci ps (d :: l) r h

theorem matchPat_length {ci : Bool} {ps : List PTok} {l r : List Char}
    (h : matchPat ci ps l = some r) : r.length ≤ l.length := by
  obtain ⟨t, ht⟩ := matchPat_decomp ci ps l r h
  rw [← ht, List.length_append]
  omega

theorem matchPat_mem {ci : Bool} {ps : List PTok} {l r : List Char}
    (h : matchPat ci ps l = some r) {c : Char} (hc : c ∈ r) : c ∈ l := by
  obtain ⟨t, ht⟩ := matchPat_decomp ci ps l r h
  rw [← ht]
  exact List.mem_append_right t hc

theorem replaceAux_length (ci : Bool) (ps : List PTok) :
    ∀ (fuel : Nat) (l : List Char), (replaceAux ci ps fuel l).length ≤ l.length
  | 0, l => le_refl _
  | fuel + 1, [] => by simp [replaceAux]
  | fuel + 1, c :: l => by
    simp only [replaceAux]
    split
    · next l2 heq => exact le_trans (replaceAux_length ci ps fuel l2) (matchPat_length heq)
    · next heq =>
      simp only [List.length_cons]
      exact Nat.succ_le_succ (replaceAux_length ci ps fuel l)

theorem replaceAux_mem (ci : Bool) (ps : List PTok) :
    ∀ (fuel : Nat) (l : List Char) (c : Char), c ∈ replaceAux ci ps fuel l → c ∈ l
  | 0, l, c => fun h => h
  | fuel + 1, [], c => by simp [replaceAux]
  | fuel + 1, d :: l, c => by
    simp only [replaceAux]
    split
    · next l2 heq =>
      intro h
      exact matchPat_mem heq (replaceAux_mem ci ps fuel l2 c h)
    · next heq =>
      intro h
      rcases List.mem_cons.mp h with h' | h'
      · exact h' ▸ List.mem_cons_self d l
      · exact List.mem_cons_of_mem d (replaceAux_mem ci ps fuel l c h')

theorem replacePat_length (ci : Bool) (ps : List PTok) (l : List Char) :
    (replacePat ci ps l).length ≤ l.length :=
  replaceAux_length ci ps l.length l

theorem replacePat_mem (ci : Bool) (ps : List PTok) (l : List Char) (c : Char)
    (h : c ∈ replacePat ci ps l) : c ∈ l :=
  replaceAux_mem ci ps l.length l c h

theorem collapseWS_mem : ∀ (l : List Char) (c : Char),
    c ∈ collapseWS l → c ∈ l ∨ c = ' '
  | [], c => by simp [collapseWS]
  | [a], c => by
    by_cases h : jsWhite a = true <;> simp [collapseWS, h] <;> intro h' <;> tauto
  | a :: b :: rest, c => by
    intro hc
    by_cases h : (jsWhite a && jsWhite b) = true
    · rw [show collapseWS (a :: b :: rest) = collapseWS (b :: rest) from by
        simp only [collapseWS, if_pos h]] at hc
      rcases collapseWS_mem (b :: rest) c hc with h' | h'
      · exact Or.inl (List.mem_cons_of_mem a h')
      · exact Or.inr h'
    · rw [show collapseWS (a :: b :: rest)
          = (if jsWhite a then ' ' else a) :: collapseWS (b :: rest) from by
        simp only [collapseWS, if_neg h]] at hc
      rcases List.mem_cons.mp hc with h' | h'
      · by_cases ha : jsWhite a = true
        · rw [if_pos ha] at h'
          exact Or.inr h'
        · rw [if_neg ha] at h'
          exact Or.inl (h' ▸ List.mem_cons_self a (b :: rest))
      · rcases collapseWS_mem (b :: rest) c h' with h'' | h''
        · exact Or.inl (List.mem_cons_of_mem a h'')
        · exact Or.inr h''

theorem collapseWS_head_white : ∀ (a : Char) (l : List Char) (c : Char),
    (collapseWS (a :: l)).head? = some c → jsWhite c = jsWhite a
  | a, [], c => by
    intro h'
    by_cases h : jsWhite a = true
    · rw [show collapseWS [a] = [' '] from by simp [collapseWS, h]] at h'
      simp only [List.head?_cons, Option.some.injEq] at h'
      rw [← h', h]
      rfl
    · rw [show collapseWS [a] = [a] from by simp [collapseWS, h]] at h'
      simp only [List.head?_cons, Option.some.injEq] at h'
      rw [← h']
  | a, b :: rest, c => by
    intro h'
    by_cases h : (jsWhite a && jsWhite b) = true
    · obtain ⟨ha, hb⟩ := Bool.and_eq_true_iff.mp h
      rw [show collapseWS (a :: b :: rest) = collapseWS (b :: rest) from by
        simp only [collapseWS, if_pos h]] at h'
      rw [collapseWS_head_white b rest c h', ha, hb]
    · rw [show collapseWS (a :: b :: rest)
          = (if jsWhite a then ' ' else a) :: collapseWS (b :: rest) from by
        simp only [collapseWS, if_neg h]] at h'
      simp only [List.head?_cons, Option.some.injEq] at h'
      by_cases ha : jsWhite a = true
      · rw [if_pos ha] at h'
        rw [← h', ha]
        rfl
      · rw [if_neg ha] at h'
        rw [← h']

theorem collapseWS_chain : ∀ (l : List Char),
    List.Chain' (fun x y => ¬(jsWhite x = true ∧ jsWhite y = true)) (collapseWS l)
  | [] => by simp [collapseWS]
  | [a] => by by_cases h : jsWhite a = true <;> simp [collapseWS, h]
  | a :: b :: rest => by
    by_cases h : (jsWhite a && jsWhite b) = true
    · rw [show collapseWS (a :: b :: rest) = collapseWS (b :: rest) from by
        simp only [collapseWS, if_pos h]]
      exact collapseWS_chain (b :: rest)
    · rw [show collapseWS (a :: b :: rest)
          = (if jsWhite a then ' ' else a) :: collapseWS (b :: rest) from by
        simp only [collapseWS, if_neg h]]
      rw [List.chain'_cons']
      refine ⟨?_, collapseWS_chain (b :: rest)⟩
      intro y hy
      have hwy := collapseWS_head_white b rest y hy
      rintro ⟨h1, h2⟩
      by_cases ha : jsWhite a = true
      · rw [hwy] at h2
        exact h (by rw [ha, h2]; rfl)
      · rw [if_neg ha] at h1
        exact ha h1

theorem head_dropWhile_not_white : ∀ (l : List Char) (c : Char),
    (l.dropWhile jsWhite).head? = some c → jsWhite c = false
  | [], c => by simp
  | a :: l, c => by
    intro h
    by_cases ha : jsWhite a = true
    · rw [List.dropWhile_cons, if_pos ha] at h
      exact head_dropWhile_not_white l c h
    · rw [List.dropWhile_cons, if_neg ha] at h
      simp only [List.head?_cons, Option.some.injEq] at h
      subst h
      cases hv : jsWhite a
      · rfl
      · exact absurd hv ha

theorem dropTrailingWS_head (a : Char) (l : List Char) (c : Char) (r : List Char)
    (h : dropTrailingWS (a :: l) = c :: r) : c = a := by
  cases h' : dropTrailingWS l with
  | nil =>
    simp only [dropTrailingWS, h'] at h
    by_cases ha : jsWhite a = true
    · rw [if_pos ha] at h
      exact absurd h (by simp)
    · rw [if_neg ha] at h
      exact (List.cons.injEq a [] c r ▸ h).1.symm
  | cons x xs =>
    simp only [dropTrailingWS, h'] at h
    exact (List.cons.injEq a (x :: xs) c r ▸ h).1.symm

theorem dropTrailingWS_last : ∀ (l : List Char) (c : Char),
    (dropTrailingWS l).getLast? = some c → jsWhite c = false
  | [], c => by simp [dropTrailingWS]
  | a :: l, c => by
    intro h
    cases h' : dropTrailingWS l with
    | nil =>
      simp only [dropTrailingWS, h'] at h
      by_cases ha : jsWhite a = true
      · rw [if_pos ha] at h
        simp at h
      · rw [if_neg ha] at h
        simp only [List.getLast?_singleton, Option.some.injEq] at h
        subst h
        cases hv : jsWhite a
        · rfl
        · exact absurd hv ha
    | cons x xs =>
      simp only [dropTrailingWS, h'] at h
      rw [List.getLast?_cons_cons, ← h'] at h
      exact dropTrailingWS_last l c h

theorem dropTrailingWS_decomp : ∀ (l : List Char), ∃ t, dropTrailingWS l ++ t = l
  | [] => ⟨[], rfl⟩
  | a :: l => by
    obtain ⟨t, ht⟩ := dropTrailingWS_decomp l
    cases h' : dropTrailingWS l with
    | nil =>
      simp only [dropTrailingWS, h']
      by_cases ha : jsWhite a = true
      · rw [if_pos ha]
        exact ⟨a :: l, rfl⟩
      · rw [if_neg ha]
        rw [h'] at ht
        simp only [List.nil_append] at ht
        exact ⟨l, by rw [List.cons_append, List.nil_append]⟩
    | cons x xs =>
      simp only [dropTrailingWS, h']
      rw [h'] at ht
      exact ⟨t, by rw [List.cons_append, ht]⟩

theorem normalizeQuery_chain (input : List Char) :
    List.Chain' (fun x y => ¬(jsWhite x = true ∧ jsWhite y = true))
      (normalizeQuery input) := by
  have h1 := collapseWS_chain (input.filter (fun c => !isCtrl c))
  obtain ⟨t, ht⟩ :=
    List.dropWhile_suffix (l := collapseWS (input.filter (fun c => !isCtrl c))) jsWhite
  rw [← ht] at h1
  have h2 := (List.chain'_append.mp h1).2.1
  obtain ⟨t2, ht2⟩ := dropTrailingWS_decomp
    ((collapseWS (input.filter (fun c => !isCtrl c))).dropWhile jsWhite)
  rw [← ht2] at h2
  exact (List.chain'_append.mp h2).1

theorem normalizeQuery_head (input : List Char) (c : Char)
    (h : (normalizeQuery input).head? = some c) : jsWhite c = false := by
  have hd : normalizeQuery input
      = dropTrailingWS ((collapseWS (input.filter (fun c => !isCtrl c))).dropWhile jsWhite) :=
    rfl
  rw [hd] at h
  cases hdcase : (collapseWS (input.filter (fun c => !isCtrl c))).dropWhile jsWhite with
  | nil =>
    rw [hdcase] at h
    simp [dropTrailingWS] at h
  | cons x xs =>
    rw [hdcase] at h
    cases he : dropTrailingWS (x :: xs) with
    | nil => rw [he] at h; simp at h
    | cons c' r =>
      rw [he] at h
      simp only [List.head?_cons, Option.some.injEq] at h
      have hcx : c' = x := dropTrailingWS_head x xs c' r he
      have hx : ((collapseWS (input.filter (fun c => !isCtrl c))).dropWhile
          jsWhite).head? = some x := by rw [hdcase]; rfl
      have := head_dropWhile_not_white _ x hx
      rw [← h, hcx]
      exact this

theorem normalizeQuery_last (input : List Char) (c : Char)
    (h : (normalizeQuery input).getLast? = some c) : jsWhite c = false :=
  dropTrailingWS_last _ c h

theorem normalizeQuery_mem (input : List Char) (c : Char)
    (h : c ∈ normalizeQuery input) : isCtrl c = false := by
  obtain ⟨t2, ht2⟩ := dropTrailingWS_decomp
    ((collapseWS (input.filter (fun c => !isCtrl c))).dropWhile jsWhite)
  have h1 : c ∈ (collapseWS (input.filter (fun c => !isCtrl c))).dropWhile jsWhite := by
    rw [← ht2]
    exact List.mem_append_left t2 h
  obtain ⟨t, ht⟩ :=
    List.dropWhile_suffix (l := collapseWS (input.filter (fun c => !isCtrl c))) jsWhite
  have h2 : c ∈ collapseWS (input.filter (fun c => !isCtrl c)) := by
    rw [← ht]
    exact List.mem_append_right t h1
  rcases collapseWS_mem _ c h2 with h3 | h3
  · have := (List.mem_filter.mp h3).2
    simp only [Bool.not_eq_true'] at this
    exact this
  · rw [h3]
    rfl

/-- C5 (amended): the sanitized output is at most 200 characters and free of
ASCII control characters, and the normalized stage (before truncation and
denylist removal) has no adjacent whitespace and no leading or trailing
whitespace.  The denylist removals run once per pattern after truncation, so
the final output can contain denylisted substrings created by the removals
themselves, as well as whitespace anomalies (see the counterexample). -/
theorem sanitizeUserInput_props (input : List Char) :
    (sanitizeUserInput input).length ≤ 200 ∧
    (∀ c ∈ sanitizeUserInput input, isCtrl c = false) ∧
    List.Chain' (fun x y => ¬(jsWhite x = true ∧ jsWhite y = true))
      (normalizeQuery input) ∧
    (∀ c, (normalizeQuery input).head? = some c → jsWhite c = false) ∧
    (∀ c, (normalizeQuery input).getLast? = some c → jsWhite c = false) := by
  refine ⟨?_, ?_, normalizeQuery_chain input, normalizeQuery_head input,
    normalizeQuery_last input⟩
  · calc (sanitizeUserInput input).length
        ≤ ((normalizeQuery input).take 200).length := by
          refine le_trans (replacePat_length _ _ _) ?_
          refine le_trans (replacePat_length _ _ _) ?_
          refine le_trans (replacePat_length _ _ _) ?_
          exact replacePat_length _ _ _
      _ ≤ 200 := by
          rw [List.length_take]
          exact min_le_left _ _
  · intro c hc
    have h1 := replacePat_mem _ _ _ _ hc
    have h2 := replacePat_mem _ _ _ _ h1
    have h3 := replacePat_mem _ _ _ _ h2
    have h4 := replacePat_mem _ _ _ _ h3
    have h5 : c ∈ normalizeQuery input := (List.take_sublist _ _).subset h4
    exact normalizeQuery_mem input c h5

/-- C5 witness input exceeding the truncation limit with a space at cut
position 199. -/
def longQueryC5 : List Char := (List.replicate 101 ['a', ' ']).flatten ++ ['z']

set_option maxRecDepth 40000 in
/-- C5 counterexample: a single replace pass can materialize a denylisted
substring out of its own deletion, and pattern deletion after trimming can
leave adjacent or leading whitespace, while truncation after trimming can
leave trailing whitespace. -/
theorem sanitizeUserInput_counterexample :
    sanitizeUserInput ("syssystem:tem:".toList) = "system:".toList ∧
    containsPat true patSystemColon (sanitizeUserInput ("syssystem:tem:".toList)) = true ∧
    sanitizeUserInput ("x system: y".toList) = "x  y".toList ∧
    (¬ List.Chain' (fun x y => ¬(jsWhite x = true ∧ jsWhite y = true))
      (sanitizeUserInput ("x system: y".toList))) ∧
    sanitizeUserInput ("system: y".toList) = " y".toList ∧
    (sanitizeUserInput longQueryC5).getLast? = some ' ' := by
  have heq : sanitizeUserInput ("x system: y".toList) = "x  y".toList := by rfl
  refine ⟨by rfl, by rfl, heq, ?_, by rfl, by rfl⟩
  rw [heq, show "x  y".toList = ['x', ' ', ' ', 'y'] from rfl]
  intro hch
  have h1 := (List.chain'_cons'.mp hch).2
  have h2 := (List.chain'_cons'.mp h1).1
  exact h2 ' ' rfl ⟨rfl, rfl⟩

/-- C5 witness: the amended theorem applied at a concrete query, discharging
the membership and head-shape hypotheses there. -/
theorem sanitizeUserInput_props_witness :
    isCtrl 'h' = false ∧ jsWhite 'h' = false ∧ jsWhite 'd' = false ∧
    (sanitizeUserInput ("  hello   world  ".toList)).length ≤ 200 :=
  ⟨(sanitizeUserInput_props ("  hello   world  ".toList)).2.1 'h' (by decide),
   (sanitizeUserInput_props ("  hello   world  ".toList)).2.2.2.1 'h' (by rfl),
   (sanitizeUserInput_props ("  hello   world  ".toList)).2.2.2.2 'd' (by rfl),
   (sanitizeUserInput_props ("  hello   world  ".toList)).1⟩

/-! ## Claim C6: fallback recommendations -/

instance : IsTotal Experience keyLe := ⟨fun a b => le_total (midKey a) (midKey b)⟩

instance : IsTrans Experience keyLe := ⟨fun _ _ _ h h' => le_trans h h'⟩

/-- The spec's ordering: ascending absolute distance of price from 100, ties
resolved by original catalog position. -/
def lexLe (p q : Nat × Experience) : Prop :=
  midKey p.2 < midKey q.2 ∨ (midKey p.2 = midKey q.2 ∧ p.1 ≤ q.1)

instance : DecidableRel lexLe := fun p q =>
  inferInstanceAs (Decidable (_ ∨ _))

/-- Modelled from the spec's words: sort the position-annotated catalog by
key then position, take the first `min count catalogSize` records, return
their ids. -/
def specFallbackRecommendations (inventory : List Experience) (count : Nat) : List Int :=
  ((((List.insertionSort lexLe inventory.enum).map Prod.snd).take
      (min count inventory.length)).map (fun e => e.id))

theorem snd_orderedInsert :
    ∀ (L : List (Nat × Experience)) (i : Nat) (a : Experience),
      (∀ p ∈ L, i < p.1) →
      (List.orderedInsert lexLe (i, a) L).map Prod.snd
        = List.orderedInsert keyLe a (L.map Prod.snd)
  | [], i, a, _ => by simp [List.orderedInsert]
  | (j, b) :: L, i, a, h => by
    have hij : i < j := h (j, b) (List.mem_cons_self _ _)
    by_cases hk : keyLe a b
    · have hlex : lexLe (i, a) (j, b) := by
        rcases lt_or_eq_of_le hk with h' | h'
        · exact Or.inl h'
        · exact Or.inr ⟨h', le_of_lt hij⟩
      rw [List.orderedInsert_of_le _ _ hlex]
      simp only [List.map_cons]
      rw [List.orderedInsert_of_le _ _ hk]
    · have hlex : ¬ lexLe (i, a) (j, b) := by
        intro hl
        rcases hl with h' | ⟨h', _⟩
        · exact hk (le_of_lt h')
        · exact hk (le_of_eq h')
      rw [show List.orderedInsert lexLe (i, a) ((j, b) :: L)
            = (j, b) :: List.orderedInsert lexLe (i, a) L from by
          simp [List.orderedInsert, hlex]]
      rw [show List.orderedInsert keyLe a (((j, b) :: L).map Prod.snd)
            = b :: List.orderedInsert keyLe a (L.map Prod.snd) from by
          simp [List.orderedInsert, hk]]
      simp only [List.map_cons]
      rw [snd_orderedInsert L i a (fun p hp => h p (List.mem_cons_of_mem _ hp))]

theorem snd_insertionSort_enumFrom :
    ∀ (l : List Experience) (n : Nat),
      (List.insertionSort lexLe (List.enumFrom n l)).map Prod.snd
        = List.insertionSort keyLe l
  | [], n => by simp [List.enumFrom, List.insertionSort]
  | a :: l, n => by
    rw [List.enumFrom_cons]
    simp only [List.insertionSort]
    rw [snd_orderedInsert _ n a ?_, snd_insertionSort_enumFrom l (n + 1)]
    intro p hp
    obtain ⟨i, x⟩ := p
    have hmem := (List.mem_insertionSort lexLe).mp hp
    have := (List.mem_enumFrom hmem).1
    omega

/-- Every fallback id is the id of some inventory record. -/
theorem mem_getFallbackRecommendations {inventory : List Experience} {count : Nat}
    {i : Int} (hi : i ∈ getFallbackRecommendations inventory count) :
    i ∈ inventory.map (fun e => e.id) := by
  rw [getFallbackRecommendations] at hi
  simp only [List.mem_map] at hi
  obtain ⟨e, he, hei⟩ := hi
  have he2 : e ∈ List.insertionSort keyLe inventory :=
    (List.take_sublist _ _).subset he
  have he3 : e ∈ inventory := (List.mem_insertionSort keyLe).mp he2
  exact List.mem_map.mpr ⟨e, he3, hei⟩

/-- C6: `getFallbackRecommendations` is a pure function of its arguments and
returns exactly the ids of the first `min count catalogSize` records of the
catalog sorted by ascending distance of price from 100 with ties in original
catalog order; the underlying record prefix is sorted by that key and the
result has length `min count catalogSize`. -/
theorem getFallbackRecommendations_spec (inventory : List Experience) (count : Nat) :
    getFallbackRecommendations inventory count
      = specFallbackRecommendations inventory count ∧
    (getFallbackRecommendations inventory count).length = min count inventory.length ∧
    List.Sorted (· ≤ ·)
      (((List.insertionSort keyLe inventory).take (min count inventory.length)).map
        midKey) ∧
    ∀ i ∈ getFallbackRecommendations inventory count,
      i ∈ inventory.map (fun e => e.id) := by
  refine ⟨?_, ?_, ?_, ?_⟩
  · rw [specFallbackRecommendations,
      show inventory.enum = List.enumFrom 0 inventory from rfl,
      snd_insertionSort_enumFrom]
    rfl
  · rw [getFallbackRecommendations]
    simp only [List.length_map, List.length_take, List.length_insertionSort]
    omega
  · have hs := List.sorted_insertionSort keyLe inventory
    have ht : List.Sorted keyLe
        ((List.insertionSort keyLe inventory).take (min count inventory.length)) :=
      List.Pairwise.sublist (List.take_sublist _ _) hs
    exact List.pairwise_map.mpr ht
  · exact fun i hi => mem_getFallbackRecommendations hi

/-- C6 witness inventory: three records with equal keys, so that the stable
sort must keep them in catalog order. -/
def invC6 : List Experience :=
  [⟨7, "A", "L1", 100, ["x"]⟩, ⟨8, "B", "L2", 100, ["y"]⟩, ⟨9, "C", "L3", 100, ["z"]⟩]

/-- C6 witness: the membership conclusion applied at a concrete inventory,
discharging the membership hypothesis by evaluation. -/
theorem getFallbackRecommendations_spec_witness :
    (7 : Int) ∈ invC6.map (fun e => e.id) :=
  (getFallbackRecommendations_spec invC6 3).2.2.2 7
    (by simp [getFallbackRecommendations, List.insertionSort, List.orderedInsert,
      keyLe, midKey, invC6])

/-! ## Claim C2: catalog validation -/

theorem parseExperience_ok {j : Json} {e : Experience} (h : parseExperience j = some e) :
    0 < e.id ∧ 0 < e.price ∧ 1 ≤ e.tags.length ∧ 0 < e.title.length ∧
      0 < e.location.length := by
  cases j with
  | obj fields =>
    simp only [parseExperience] at h
    split at h
    · split at h
      · split at h
        · rename_i idq title location price tagsJson heq5 ts hts hcond
          simp only [Option.some.injEq] at h
          subst h
          simp only [Bool.and_eq_true, beq_iff_eq, decide_eq_true_eq] at hcond
          obtain ⟨⟨⟨⟨⟨hden, hpos⟩, htl⟩, hll⟩, hpp⟩, htg⟩ := hcond
          exact ⟨Rat.num_pos.mpr hpos, hpp, htg, htl, hll⟩
        · exact absurd h (by simp)
      · exact absurd h (by simp)
    · exact absurd h (by simp)
  | null => simp [parseExperience] at h
  | bool b => simp [parseExperience] at h
  | num q => simp [parseExperience] at h
  | str s => simp [parseExperience] at h
  | arr items => simp [parseExperience] at h

theorem parseInventory_mem :
    ∀ {items : List Json} {exps : List Experience},
      parseInventory items = some exps → ∀ e ∈ exps, ∃ j ∈ items, parseExperience j = some e
  | [], exps => by
    intro h e he
    simp only [parseInventory, Option.some.injEq] at h
    subst h
    simp at he
  | j :: rest, exps => by
    intro h e he
    simp only [parseInventory] at h
    split at h
    · rename_i e0 hje0
      cases hrec : parseInventory rest with
      | none => rw [hrec] at h; simp at h
      | some es =>
        rw [hrec] at h
        simp only [Option.map_some', Option.some.injEq] at h
        subst h
        rcases List.mem_cons.mp he with h' | h'
        · exact ⟨j, List.mem_cons_self _ _, h' ▸ hje0⟩
        · obtain ⟨j', hj', hpe⟩ := parseInventory_mem hrec e h'
          exact ⟨j', List.mem_cons_of_mem _ hj', hpe⟩
    · exact absurd h (by simp)

theorem parseInventory_isSome :
    ∀ (items : List Json),
      (parseInventory items).isSome = true ↔ ∀ j ∈ items, (parseExperience j).isSome = true
  | [] => by simp [parseInventory]
  | j :: rest => by
    simp only [parseInventory]
    cases hpj : parseExperience j with
    | none => simp [hpj]
    | some e0 =>
      have ih := parseInventory_isSome rest
      cases hrec : parseInventory rest with
      | none =>
        rw [hrec] at ih
        simp only [Option.isSome_none, Bool.false_eq_true, false_iff] at ih
        simp only [Option.map_none', Option.isSome_none, Bool.false_eq_true, false_iff]
        intro hall
        exact ih fun j' hj' => hall j' (List.mem_cons_of_mem _ hj')
      | some es =>
        rw [hrec] at ih
        simp only [Option.isSome_some, true_iff] at ih
        simp only [Option.map_some', Option.isSome_some, true_iff]
        intro j' hj'
        rcases List.mem_cons.mp hj' with h' | h'
        · rw [h', hpj]; rfl
        · exact ih j' h'

/-- C2 (amended): `getAllExperiences` fails exactly when some record of the
raw dataset fails the Experience shape validation (positive integer id,
non-empty title and location, positive price, at least one tag); every
loaded record satisfies those invariants.  Uniqueness of ids is NOT checked:
a dataset with a duplicated id loads successfully (see the counterexample). -/
theorem getAllExperiences_spec (data : Json) :
    (∀ exps, getAllExperiences data = Except.ok exps →
      ∀ e ∈ exps, 0 < e.id ∧ 0 < e.price ∧ 1 ≤ e.tags.length ∧
        0 < e.title.length ∧ 0 < e.location.length) ∧
    ((∃ msg, getAllExperiences data = Except.error msg) ↔
      ¬ ∃ items, data = Json.arr items ∧
        ∀ j ∈ items, (parseExperience j).isSome = true) := by
  constructor
  · intro exps hok e he
    cases data with
    | arr items =>
      simp only [getAllExperiences] at hok
      cases hpi : parseInventory items with
      | none => rw [hpi] at hok; exact absurd hok (by simp)
      | some es =>
        rw [hpi] at hok
        simp only [Except.ok.injEq] at hok
        subst hok
        obtain ⟨j, _, hpe⟩ := parseInventory_mem hpi e he
        exact parseExperience_ok hpe
    | null => simp [getAllExperiences] at hok
    | bool b => simp [getAllExperiences] at hok
    | num q => simp [getAllExperiences] at hok
    | str s => simp [getAllExperiences] at hok
    | obj fields => simp [getAllExperiences] at hok
  · cases data with
    | arr items =>
      have hiff := parseInventory_isSome items
      cases hpi : parseInventory items with
      | none =>
        rw [hpi] at hiff
        simp only [Option.isSome_none, Bool.false_eq_true, false_iff] at hiff
        simp [getAllExperiences, hpi, Json.arr.injEq]
        push_neg at hiff
        obtain ⟨j, hj, hns⟩ := hiff
        exact ⟨j, hj, Option.not_isSome_iff_eq_none.mp hns⟩
      | some es =>
        rw [hpi] at hiff
        simp only [Option.isSome_some, true_iff] at hiff
        simp [getAllExperiences, hpi, Json.arr.injEq]
        intro x hx hnone
        have hs := hiff x hx
        rw [hnone] at hs
        simp at hs
    | null => simp [getAllExperiences]
    | bool b => simp [getAllExperiences]
    | num q => simp [getAllExperiences]
    | str s => simp [getAllExperiences]
    | obj fields => simp [getAllExperiences]

/-- A shape-valid catalog record with id 1. -/
def dupRecordJson : Json :=
  Json.obj [("id", Json.num 1), ("title", Json.str "Beach Day"),
    ("location", Json.str "Mirissa"), ("price", Json.num 60),
    ("tags", Json.arr [Json.str "beach"])]

/-- A raw dataset whose two records share the id 1. -/
def dupInventoryJson : Json := Json.arr [dupRecordJson, dupRecordJson]

/-- C2 counterexample: the loader accepts a dataset with a duplicated id,
so loading does not fail on every violation of the dataset-wide
distinctness invariant claimed by the spec. -/
theorem getAllExperiences_counterexample :
    getAllExperiences dupInventoryJson
      = Except.ok [⟨1, "Beach Day", "Mirissa", 60, ["beach"]⟩,
          ⟨1, "Beach Day", "Mirissa", 60, ["beach"]⟩] := by rfl

/-- C2 witness: the amended theorem applied to a concrete one-record
dataset, discharging the success and membership hypotheses there. -/
theorem getAllExperiences_spec_witness :
    0 < (⟨1, "Beach Day", "Mirissa", 60, ["beach"]⟩ : Experience).id ∧
    0 < (⟨1, "Beach Day", "Mirissa", 60, ["beach"]⟩ : Experience).price ∧
    1 ≤ (⟨1, "Beach Day", "Mirissa", 60, ["beach"]⟩ : Experience).tags.length ∧
    0 < (⟨1, "Beach Day", "Mirissa", 60, ["beach"]⟩ : Experience).title.length ∧
    0 < (⟨1, "Beach Day", "Mirissa", 60, ["beach"]⟩ : Experience).location.length :=
  (getAllExperiences_spec (Json.arr [dupRecordJson])).1
    [⟨1, "Beach Day", "Mirissa", 60, ["beach"]⟩] (by rfl)
    ⟨1, "Beach Day", "Mirissa", 60, ["beach"]⟩ (by simp)

/-! ## Claim C7: safe JSON parsing -/

/-- C7: `safeJsonParse` strips Markdown code fences, trims, and catches any
`JSON.parse` failure, returning the parsed value or an absent result but
never a thrown failure; a fenced object parses to that object and invalid
JSON yields an absent result. -/
theorem safeJsonParse_spec :
    (∀ text : List Char, safeJsonParse text
      = match JSONparse (stripFences text) with
        | Except.ok v => some v
        | Except.error _ => none) ∧
    safeJsonParse ("```json\n\x7b\"experience_ids\": [1]\x7d\n```".toList)
      = some (Json.obj [("experience_ids", Json.arr [Json.num 1])]) ∧
    safeJsonParse ("\x7binvalid json\x7d".toList) = none :=
  ⟨fun _ => rfl, by rfl, by rfl⟩

/-! ## Claim C8: short-circuit on short queries -/

/-- C8: when the sanitized query is empty or shorter than 3 characters,
`getRecommendations` returns the empty recommendation with the explanatory
message and empty matched tags, and the result does not depend on the
external AI outcome (the AI service is never consulted). -/
theorem getRecommendations_shortCircuit (userQuery : List Char) (filters : Filters)
    (inventory : List Experience) (outcome : AIOutcome)
    (h : sanitizeUserInput userQuery = [] ∨ (sanitizeUserInput userQuery).length < 3) :
    getRecommendations userQuery filters inventory outcome
      = Except.ok ⟨[], shortQueryMsg, some []⟩ ∧
    ∀ outcome2, getRecommendations userQuery filters inventory outcome
      = getRecommendations userQuery filters inventory outcome2 := by
  have hlen : (sanitizeUserInput userQuery).length < 3 := by
    rcases h with h | h
    · rw [h]
      decide
    · exact h
  constructor
  · simp only [getRecommendations, if_pos hlen]
  · intro o2
    simp only [getRecommendations, if_pos hlen]

/-- C8 witness: a two-character query short-circuits identically for a
failing outcome. -/
theorem getRecommendations_shortCircuit_witness :
    getRecommendations ("hi".toList) {} [] (AIOutcome.failure ("boom".toList))
      = Except.ok ⟨[], shortQueryMsg, some []⟩ :=
  (getRecommendations_shortCircuit ("hi".toList) {} []
    (AIOutcome.failure ("boom".toList)) (Or.inr (by decide))).1

/-! ## Claim C1: recommendations are grounded in the inventory -/

theorem getFallbackResponse_grounded (inventory : List Experience) (reason : String) :
    (getFallbackResponse inventory reason).experience_ids.all
      (fun i => (inventory.map (fun e => e.id)).contains i) = true := by
  rw [List.all_eq_true]
  intro i hi
  exact List.elem_iff.mpr (mem_getFallbackRecommendations hi)

theorem validateExperienceIds_grounded (ids : List Int) (inventory : List Experience) :
    (validateExperienceIds ids inventory).all
      (fun i => (inventory.map (fun e => e.id)).contains i) = true := by
  rw [List.all_eq_true]
  intro i hi
  exact List.of_mem_filter hi

/-- C1: on every exit path that returns a recommendation (everything except
a rethrown credential error), the returned `experience_ids` contains only
ids occurring in the inventory passed in: the short-circuit path returns no
ids, the success path intersects the AI ids with the inventory, and every
fallback path draws its ids from `getFallbackRecommendations` over the same
inventory. -/
theorem getRecommendations_grounded (userQuery : List Char) (filters : Filters)
    (inventory : List Experience) (outcome : AIOutcome) (rec : LLMRecommendation)
    (h : getRecommendations userQuery filters inventory outcome = Except.ok rec) :
    rec.experience_ids.all (fun i => (inventory.map (fun e => e.id)).contains i)
      = true := by
  simp only [getRecommendations] at h
  split at h
  · simp only [Except.ok.injEq] at h
    rw [← h]
    rfl
  · split at h
    · -- external failure
      split at h
      · exact absurd h (by simp)
      · split at h
        · simp only [Except.ok.injEq] at h
          rw [← h]
          exact getFallbackResponse_grounded inventory busyMsg
        · simp only [Except.ok.injEq] at h
          rw [← h]
          exact getFallbackResponse_grounded inventory genericFailMsg
    · -- response text
      split at h
      · simp only [Except.ok.injEq] at h
        rw [← h]
        exact getFallbackResponse_grounded inventory parseFailMsg
      · split at h
        · simp only [Except.ok.injEq] at h
          rw [← h]
          exact getFallbackResponse_grounded inventory invalidFormatMsg
        · rename_i valid hvalid
          simp only [Except.ok.injEq] at h
          rw [← h]
          exact validateExperienceIds_grounded valid.experience_ids inventory

/-- C1 witness inventory. -/
def invC1 : List Experience :=
  [⟨1, "Surf Retreat", "Arugam Bay", 80, ["beach"]⟩,
   ⟨2, "City Walk", "Galle", 45, ["history"]⟩]

/-- C1 witness response text: a schema-valid AI reply containing one real id
and one hallucinated id. -/
def respC1 : List Char :=
  ("\x7b\"experience_ids\": [2, 7], \"reasoning\": " ++
   "\"history walk matches your interest\", \"matched_tags\": [\"history\"]\x7d").toList

set_option maxRecDepth 40000 in
/-- C1 witness: the theorem applied to a concrete run whose AI response
contains the hallucinated id 7; the returned list keeps only id 2. -/
theorem getRecommendations_grounded_witness :
    ([2] : List Int).all (fun i => ((invC1.map (fun e => e.id)).contains i)) = true :=
  getRecommendations_grounded ("history trip".toList) {} invC1
    (AIOutcome.response respC1)
    ⟨[2], "history walk matches your interest", some ["history"]⟩ (by rfl)

end STS
